import Mathlib

/-!
# Verification of the ENTSO-e data integration core

A shallow embedding of the data-retrieval, resolution-normalization and
aggregation engine of the `entsoe_data` integration
(`custom_components/entsoe_data/api_client.py` and
`custom_components/entsoe_data/coordinator.py`), together with theorems
settling the specification claims about it.

Modelling conventions:
* `datetime` values are modelled as `Int` minutes (one hour = 60); `timedelta`
  likewise.  Python floats are modelled as `ℚ`.
* Python dicts (`Dict[datetime, float]`, the PT15M `positions` dict, the
  per-area bookkeeping dicts) are modelled as association lists together with
  `alookup` (first match) and `aset` (replace in place, else append), which is
  exactly the observable behaviour of dict read / `d[k] = v` write including
  insertion order.
* `dict(sorted(d.items()))` and `{k: d[k] for k in sorted(d)}` produce the same
  key→value mapping as `d`; the final reordering is not re-modelled, and all
  claim statements about mappings are phrased via `alookup`.
* `round(x, 2)` (Python, banker's rounding on binary floats) is modelled as
  half-up rounding on ℚ; no theorem below evaluates the rounding at a tie, so
  the difference in tie-breaking is never exercised.
-/

namespace Entsoe

/-- Association-list lookup: the value stored at key `k`, i.e. Python `d.get(k)` /
`d[k]` on a dict modelled as an ordered list of key-value pairs. -/
def alookup {α β : Type} [DecidableEq α] : List (α × β) → α → Option β
  | [], _ => none
  | p :: r, k => if p.1 = k then some p.2 else alookup r k

/-- Association-list store, Python `d[k] = v`: replace the value in place if the
key is present, otherwise append the new pair (dict insertion order). -/
def aset {α β : Type} [DecidableEq α] : List (α × β) → α → β → List (α × β)
  | [], k, v => [(k, v)]
  | p :: r, k, v => if p.1 = k then (k, v) :: r else p :: aset r k v

theorem alookup_aset_self {α β : Type} [DecidableEq α] (l : List (α × β)) (k : α) (v : β) :
    alookup (aset l k v) k = some v := by
  induction l with
  | nil => simp [aset, alookup]
  | cons p r ih =>
    by_cases h : p.1 = k
    · simp [aset, alookup, h]
    · simp [aset, alookup, h, ih]

theorem alookup_aset_ne {α β : Type} [DecidableEq α] (l : List (α × β)) (k k' : α) (v : β)
    (h : k' ≠ k) : alookup (aset l k v) k' = alookup l k' := by
  induction l with
  | nil => simp [aset, alookup, Ne.symm h]
  | cons p r ih =>
    by_cases hpk : p.1 = k
    · subst hpk
      simp [aset, alookup, Ne.symm h]
    · simp [aset, alookup, hpk, ih]

theorem aset_eq_append_of_alookup_none {α β : Type} [DecidableEq α]
    (l : List (α × β)) (k : α) (v : β) (h : alookup l k = none) :
    aset l k v = l ++ [(k, v)] := by
  induction l with
  | nil => simp [aset]
  | cons p r ih =>
    by_cases hpk : p.1 = k
    · simp [alookup, hpk] at h
    · simp [alookup, hpk] at h
      simp [aset, hpk, ih h]

theorem alookup_append {α β : Type} [DecidableEq α] (l₁ l₂ : List (α × β)) (k : α) :
    alookup (l₁ ++ l₂) k =
      match alookup l₁ k with
      | some v => some v
      | none => alookup l₂ k := by
  induction l₁ with
  | nil => simp [alookup]
  | cons p r ih =>
    by_cases hpk : p.1 = k
    · simp [alookup, hpk]
    · simp [alookup, hpk, ih]

theorem alookup_append_left {α β : Type} [DecidableEq α] (l₁ l₂ : List (α × β)) (k : α) (v : β)
    (h : alookup l₁ k = some v) : alookup (l₁ ++ l₂) k = some v := by
  rw [alookup_append, h]

theorem alookup_isSome_of_mem_keys {α β : Type} [DecidableEq α]
    (l : List (α × β)) (k : α) (h : k ∈ l.map Prod.fst) : (alookup l k).isSome := by
  induction l with
  | nil => simp at h
  | cons p r ih =>
    by_cases hpk : p.1 = k
    · simp [alookup, hpk]
    · simp [alookup, hpk]
      rcases List.mem_map.mp h with ⟨q, hq, hqk⟩
      rcases List.mem_cons.mp hq with hq1 | hq2
      · exact absurd (hq1 ▸ hqk) hpk
      · exact ih (List.mem_map.mpr ⟨q, hq2, hqk⟩)

/-- One timestamp→value series (`Dict[datetime, float]` in the source). -/
abbrev Series := List (Int × ℚ)

/-- Loop body of `EntsoeClient._fill_missing_hours` (api_client.py lines 183-201).
The Python `while current_time < end_time` loop advances by one hour per
iteration; it is embedded with an explicit iteration count (`fuel`), computed
in `fill_missing_hours` as the exact number of iterations the loop performs,
while the `cur < stop` guard is kept so the semantics match the source loop.
State: `s` is the series being mutated, `cur` is `current_time`, `lv` is
`last_value`. -/
def fillGo (stop : Int) : ℕ → Series → Int → Option ℚ → Series
  | 0, s, _, _ => s
  | fuel + 1, s, cur, lv =>
    if cur < stop then
      match alookup s cur with
      | some v => fillGo stop fuel s (cur + 60) (some v)
      | none =>
        match lv with
        | some x => fillGo stop fuel (aset s cur x) (cur + 60) (some x)
        | none => fillGo stop fuel s (cur + 60) none
    else s

/-- `EntsoeClient._fill_missing_hours`: walk the hour grid from `start_time` to
`end_time`, copying the running `last_value` into missing hours.  `last_value`
is initialised to `series.get(start_time)`.  The iteration count
`((end_time - start_time).toNat + 59) / 60` is exactly the number of times the
Python loop tests `current_time < end_time` with `current_time < end_time`
true. -/
def fill_missing_hours (series : Series) (start_time end_time : Int) : Series :=
  fillGo end_time (((end_time - start_time).toNat + 59) / 60) series start_time
    (alookup series start_time)

theorem alookup_append_none {α β : Type} [DecidableEq α] (l₁ l₂ : List (α × β)) (k : α)
    (h : alookup (l₁ ++ l₂) k = none) : alookup l₁ k = none := by
  rw [alookup_append] at h
  cases hl : alookup l₁ k with
  | none => rfl
  | some v => rw [hl] at h; simp at h

theorem fillGo_extends (stop : Int) (fuel : ℕ) :
    ∀ (s : Series) (cur : Int) (lv : Option ℚ),
    ∃ ext, fillGo stop fuel s cur lv = s ++ ext ∧
      (∀ p ∈ ext, (∃ k : ℕ, p.1 = cur + 60 * k) ∧ p.1 < stop ∧ alookup s p.1 = none) ∧
      (ext.map Prod.fst).Nodup := by
  induction fuel with
  | zero => exact fun s cur lv => ⟨[], by simp [fillGo], by simp⟩
  | succ n ih =>
    intro s cur lv
    by_cases hc : cur < stop
    · cases hv : alookup s cur with
      | some v =>
        rcases ih s (cur + 60) (some v) with ⟨ext, he, hp, hnd⟩
        refine ⟨ext, by simp [fillGo, hc, hv, he], fun p hmem => ?_, hnd⟩
        rcases hp p hmem with ⟨⟨k, hk⟩, hlt, hnone⟩
        exact ⟨⟨k + 1, by omega⟩, hlt, hnone⟩
      | none =>
        cases lv with
        | some x =>
          have hset : aset s cur x = s ++ [(cur, x)] :=
            aset_eq_append_of_alookup_none s cur x hv
          rcases ih (s ++ [(cur, x)]) (cur + 60) (some x) with ⟨ext, he, hp, hnd⟩
          refine ⟨(cur, x) :: ext, ?_, ?_, ?_⟩
          · rw [show fillGo stop (n + 1) s cur (some x)
                = fillGo stop n (aset s cur x) (cur + 60) (some x) by
              simp [fillGo, hc, hv]]
            rw [hset, he, List.append_assoc]
            rfl
          · intro p hmem
            rcases List.mem_cons.mp hmem with hp1 | hp2
            · subst hp1
              exact ⟨⟨0, by omega⟩, hc, hv⟩
            · rcases hp p hp2 with ⟨⟨k, hk⟩, hlt, hnone⟩
              exact ⟨⟨k + 1, by omega⟩, hlt, alookup_append_none _ _ _ hnone⟩
          · simp only [List.map_cons, List.nodup_cons]
            refine ⟨fun hmem => ?_, hnd⟩
            rcases List.mem_map.mp hmem with ⟨p, hpm, hpk⟩
            rcases hp p hpm with ⟨⟨k, hk⟩, _, _⟩
            omega
        | none =>
          rcases ih s (cur + 60) none with ⟨ext, he, hp, hnd⟩
          refine ⟨ext, by simp [fillGo, hc, hv, he], fun p hmem => ?_, hnd⟩
          rcases hp p hmem with ⟨⟨k, hk⟩, hlt, hnone⟩
          exact ⟨⟨k + 1, by omega⟩, hlt, hnone⟩
    · exact ⟨[], by simp [fillGo, hc], by simp, by simp⟩

/-- C10: `_fill_missing_hours` never changes the value of any timestamp already
present in the input series — the result is the input series extended by new
entries only — and every entry it adds lies at a whole-hour (60-minute) offset
from the period start and strictly before the period end; in particular every
pre-existing entry, including any outside `[start, end)`, keeps its value. -/
theorem fill_missing_hours_frame (s : Series) (a b : Int) :
    (∃ ext, fill_missing_hours s a b = s ++ ext ∧
       ∀ p ∈ ext, (∃ k : ℕ, p.1 = a + 60 * k) ∧ p.1 < b ∧ alookup s p.1 = none) ∧
    (∀ t v, alookup s t = some v → alookup (fill_missing_hours s a b) t = some v) := by
  rcases fillGo_extends b (((b - a).toNat + 59) / 60) s a (alookup s a) with ⟨ext, he, hp, -⟩
  refine ⟨⟨ext, by rw [fill_missing_hours]; exact he, hp⟩, fun t v hv => ?_⟩
  rw [fill_missing_hours, he]
  exact alookup_append_left _ _ _ _ hv

/-- Witness for C10: a concrete series with one entry at the period start;
`_fill_missing_hours` keeps the entry and its value unchanged. -/
theorem fill_missing_hours_frame_witness :
    alookup (fill_missing_hours [((0 : Int), (5 : ℚ))] 0 120) 0 = some 5 :=
  (fill_missing_hours_frame [((0 : Int), (5 : ℚ))] 0 120).2 0 5 (by simp [alookup])

/-- The value the fill loop carries at hour index `k` when started at `cur`
with initial `last_value` `lv`: the series value at the latest populated grid
hour `≤ cur + 60*k`, else the initial `last_value`. -/
def lastKnownFrom (s : Series) (cur : Int) (lv : Option ℚ) : ℕ → Option ℚ
  | 0 =>
    match alookup s cur with
    | some v => some v
    | none => lv
  | k + 1 =>
    match alookup s (cur + 60 * ((k : Int) + 1)) with
    | some v => some v
    | none => lastKnownFrom s cur lv k

/-- The most recent known value of `s` as of hour index `k` from `start`:
the value at the greatest populated grid hour `start + 60*j`, `j ≤ k`, if any. -/
def last_known (s : Series) (start : Int) : ℕ → Option ℚ
  | 0 => alookup s start
  | k + 1 =>
    match alookup s (start + 60 * ((k : Int) + 1)) with
    | some v => some v
    | none => last_known s start k

theorem alookup_append_single_ne (s : Series) (c : Int) (x : ℚ) (t : Int) (h : t ≠ c) :
    alookup (s ++ [(c, x)]) t = alookup s t := by
  rw [alookup_append]
  cases hl : alookup s t with
  | some v => rfl
  | none => simp [alookup, Ne.symm h]

theorem alookup_eq_none_of_forall_ne {l : Series} {k : Int}
    (h : ∀ p ∈ l, p.1 ≠ k) : alookup l k = none := by
  induction l with
  | nil => rfl
  | cons p r ih =>
    simp only [alookup, if_neg (h p (List.mem_cons_self p r))]
    exact ih fun q hq => h q (List.mem_cons_of_mem p hq)

theorem lastKnownFrom_shift (s : Series) (cur : Int) (lv : Option ℚ) (k : ℕ) :
    lastKnownFrom s (cur + 60) (lastKnownFrom s cur lv 0) k = lastKnownFrom s cur lv (k + 1) := by
  induction k with
  | zero =>
    have e : cur + 60 * (((0 : ℕ) : Int) + 1) = cur + 60 := by push_cast; ring
    cases h : alookup s (cur + 60) with
    | some v => simp [lastKnownFrom, e, h]
    | none => simp [lastKnownFrom, e, h]
  | succ m ih =>
    have e : cur + 60 + 60 * ((m : Int) + 1) = cur + 60 * (((m + 1 : ℕ) : Int) + 1) := by
      push_cast; ring
    simp only [lastKnownFrom, e]
    cases h : alookup s (cur + 60 * (((m + 1 : ℕ) : Int) + 1)) with
    | some v => rfl
    | none => exact ih

theorem lastKnownFrom_congr (s s' : Series) (cur : Int) (lv : Option ℚ) (k : ℕ)
    (h : ∀ j : ℕ, j ≤ k →
      alookup s' (cur + 60 * (j : Int)) = alookup s (cur + 60 * (j : Int))) :
    lastKnownFrom s' cur lv k = lastKnownFrom s cur lv k := by
  induction k with
  | zero =>
    have h0 := h 0 le_rfl
    simp only [Nat.cast_zero, mul_zero, add_zero] at h0
    simp only [lastKnownFrom, h0]
  | succ m ih =>
    have h1 := h (m + 1) le_rfl
    have e : cur + 60 * (((m + 1 : ℕ) : Int)) = cur + 60 * ((m : Int) + 1) := by
      push_cast; ring
    rw [e] at h1
    simp only [lastKnownFrom, h1]
    cases alookup s (cur + 60 * ((m : Int) + 1)) with
    | some v => rfl
    | none => exact ih fun j hj => h j (le_trans hj (Nat.le_succ m))

theorem fillGo_lookup (stop : Int) (fuel : ℕ) :
    ∀ (s : Series) (cur : Int) (lv : Option ℚ) (k : ℕ),
    cur + 60 * (k : Int) < stop → k < fuel →
    alookup (fillGo stop fuel s cur lv) (cur + 60 * (k : Int)) = lastKnownFrom s cur lv k := by
  induction fuel with
  | zero => intro s cur lv k _ hk; omega
  | succ n ih =>
    intro s cur lv k hks hkf
    have hc : cur < stop := by omega
    cases k with
    | zero =>
      simp only [Nat.cast_zero, mul_zero, add_zero] at hks ⊢
      cases hv : alookup s cur with
      | some v =>
        rcases fillGo_extends stop n s (cur + 60) (some v) with ⟨ext, he, _⟩
        simp only [fillGo, if_pos hc, hv, he, lastKnownFrom]
        exact alookup_append_left _ _ _ _ hv
      | none =>
        cases hlv : lv with
        | some x =>
          have hset : aset s cur x = s ++ [(cur, x)] :=
            aset_eq_append_of_alookup_none s cur x hv
          rcases fillGo_extends stop n (s ++ [(cur, x)]) (cur + 60) (some x) with ⟨ext, he, _⟩
          simp only [fillGo, if_pos hc, hv, hset, he, lastKnownFrom]
          refine alookup_append_left _ _ _ _ ?_
          rw [alookup_append, hv]
          simp [alookup]
        | none =>
          rcases fillGo_extends stop n s (cur + 60) none with ⟨ext, he, hp, -⟩
          simp only [fillGo, if_pos hc, hv, he, lastKnownFrom]
          rw [alookup_append, hv]
          exact alookup_eq_none_of_forall_ne fun p hmem => by
            rcases hp p hmem with ⟨⟨j, hj⟩, _, _⟩
            omega
    | succ m =>
      have hm : (cur + 60) + 60 * (m : Int) = cur + 60 * (((m + 1 : ℕ) : Int)) := by
        push_cast; ring
      have hms : (cur + 60) + 60 * (m : Int) < stop := by rw [hm]; exact hks
      have hmf : m < n := by omega
      cases hv : alookup s cur with
      | some v =>
        have step : fillGo stop (n + 1) s cur lv = fillGo stop n s (cur + 60) (some v) := by
          simp [fillGo, hc, hv]
        have hlv0 : lastKnownFrom s cur lv 0 = some v := by
          simp [lastKnownFrom, hv]
        rw [step, ← hm, ih s (cur + 60) (some v) m hms hmf,
          ← lastKnownFrom_shift s cur lv m, hlv0]
      | none =>
        cases hlv : lv with
        | some x =>
          have hset : aset s cur x = s ++ [(cur, x)] :=
            aset_eq_append_of_alookup_none s cur x hv
          have step : fillGo stop (n + 1) s cur (some x)
              = fillGo stop n (s ++ [(cur, x)]) (cur + 60) (some x) := by
            simp [fillGo, hc, hv, hset]
          have hcongr : lastKnownFrom (s ++ [(cur, x)]) (cur + 60) (some x) m
              = lastKnownFrom s (cur + 60) (some x) m := by
            refine lastKnownFrom_congr _ _ _ _ _ fun j _ => ?_
            exact alookup_append_single_ne _ _ _ _ (by omega)
          have hlv0 : lastKnownFrom s cur (some x) 0 = some x := by
            simp [lastKnownFrom, hv]
          rw [step, ← hm, ih (s ++ [(cur, x)]) (cur + 60) (some x) m hms hmf, hcongr,
            ← lastKnownFrom_shift s cur (some x) m, hlv0]
        | none =>
          have step : fillGo stop (n + 1) s cur (none : Option ℚ)
              = fillGo stop n s (cur + 60) none := by
            simp [fillGo, hc, hv]
          have hlv0 : lastKnownFrom s cur (none : Option ℚ) 0 = none := by
            simp [lastKnownFrom, hv]
          rw [step, ← hm, ih s (cur + 60) none m hms hmf,
            ← lastKnownFrom_shift s cur none m, hlv0]

theorem lastKnownFrom_start (s : Series) (start : Int) (k : ℕ) :
    lastKnownFrom s start (alookup s start) k = last_known s start k := by
  induction k with
  | zero =>
    cases h : alookup s start with
    | some v => simp [lastKnownFrom, last_known, h]
    | none => simp [lastKnownFrom, last_known, h]
  | succ m ih =>
    simp only [lastKnownFrom, last_known]
    cases alookup s (start + 60 * ((m : Int) + 1)) with
    | some v => rfl
    | none => exact ih

/-- The value the fill pass leaves at grid hour `start + 60*k` inside
`[start, stop)` is exactly the most recent known value of the input series as
of that hour. -/
theorem fill_missing_hours_lookup (s : Series) (start stop : Int) (k : ℕ)
    (h : start + 60 * (k : Int) < stop) :
    alookup (fill_missing_hours s start stop) (start + 60 * (k : Int))
      = last_known s start k := by
  have hfuel : k < ((stop - start).toNat + 59) / 60 := by
    rw [Nat.lt_iff_add_one_le, Nat.le_div_iff_mul_le (by norm_num : 0 < 60)]
    omega
  rw [fill_missing_hours, fillGo_lookup stop _ s start (alookup s start) k h hfuel,
    lastKnownFrom_start]

/-- Model of Python `round(q, d)`.  Python uses banker's rounding on binary
floats; this model rounds half up on ℚ.  No theorem in this file evaluates the
rounding at an exact tie, so the difference in tie-breaking is never
exercised. -/
def roundHalfUp (d : ℕ) (q : ℚ) : ℚ := (⌊q * 10 ^ d + 1 / 2⌋ : ℚ) / 10 ^ d

/-- `value = round(value, round_digits) if round_digits is not None else value`. -/
def optRound : Option ℕ → ℚ → ℚ
  | none, q => q
  | some d, q => roundHalfUp d q

/-- `EntsoeClient.process_PT60M_points` (api_client.py lines 458-479): each
point's 1-based `position` indexes hours from the period start
(`hour = position - 1`), the value is optionally rounded and stored at
`start_time + hour` hours.  The XML extraction is abstracted: `points` is the
list of `(position, value)` pairs found in the period, in document order
(points lacking a position or value element are already absent from it). -/
def process_PT60M_points (points : List (ℕ × ℚ)) (start_time : Int)
    (round_digits : Option ℕ) : Series :=
  points.foldl
    (fun data p => aset data (start_time + 60 * ((p.1 : Int) - 1)) (optRound round_digits p.2))
    []

/-- First loop of `EntsoeClient.process_PT15M_points` (api_client.py lines
489-499): store all `(position, value)` points into the `positions` dict. -/
def buildPositions (points : List (ℕ × ℚ)) : List (ℕ × ℚ) :=
  points.foldl (fun d p => aset d p.1 p.2) []

/-- `max(positions.keys())` (for a nonempty dict of 1-based positions). -/
def maxPosKey (l : List (ℕ × ℚ)) : ℕ := l.foldl (fun m p => max m p.1) 0

/-- `min(positions.keys())` (for a nonempty dict). -/
def minPosKey : List (ℕ × ℚ) → ℕ
  | [] => 0
  | p :: r => r.foldl (fun m q => min m q.1) p.1

/-- Inner loop of `process_PT15M_points` (lines 510-515): for the four quarter
indices `hour*4+1 .. hour*4+4`, update `last_value = positions.get(idx,
last_value)` and accumulate `sum_values` and `count`. -/
def pt15mInner (positions : List (ℕ × ℚ)) (hour : ℕ) (lastValue : ℚ) : ℚ × ℚ × ℕ :=
  (List.range 4).foldl
    (fun acc j =>
      let lv := (alookup positions (hour * 4 + 1 + j)).getD acc.1
      (lv, acc.2.1 + lv, acc.2.2 + 1))
    (lastValue, 0, 0)

/-- One iteration of the hour loop of `process_PT15M_points` (lines 509-522):
run the quarter loop, divide by `max(count, 1)`, round, store at
`start_time + hour` hours.  The running `last_value` is carried across hours. -/
def pt15mStep (positions : List (ℕ × ℚ)) (start_time : Int) (round_digits : Option ℕ)
    (st : ℚ × Series) (hour : ℕ) : ℚ × Series :=
  let r := pt15mInner positions hour st.1
  let average := r.2.1 / ((max r.2.2 1 : ℕ) : ℚ)
  (r.1, aset st.2 (start_time + 60 * (hour : Int)) (optRound round_digits average))

/-- `EntsoeClient.process_PT15M_points` (api_client.py lines 482-524): build
the positions dict; if it is empty return `{}`; otherwise emit one value for
each hour `0 ≤ hour < (max_position + 3) // 4` (`= ceil(max_position / 4)`),
starting the carried `last_value` at the value of the smallest known
position. -/
def process_PT15M_points (points : List (ℕ × ℚ)) (start_time : Int)
    (round_digits : Option ℕ) : Series :=
  if (buildPositions points).isEmpty then []
  else
    ((List.range ((maxPosKey (buildPositions points) + 3) / 4)).foldl
      (pt15mStep (buildPositions points) start_time round_digits)
      ((alookup (buildPositions points) (minPosKey (buildPositions points))).getD 0, [])).2

/-- The substituted value of quarter position `i`: the stored value if position
`i` is known, else the substituted value of position `i - 1`, bottoming out at
the value of the smallest known position (the initial `last_value`).  This is
exactly "the nearest earlier known position's value, with the earliest known
position's value as the initial substitute". -/
def quarter_subst (positions : List (ℕ × ℚ)) : ℕ → ℚ
  | 0 => (alookup positions (minPosKey positions)).getD 0
  | i + 1 => (alookup positions (i + 1)).getD (quarter_subst positions i)

/-- The arithmetic mean of the four substituted quarter values of hour `h`. -/
def hour_average (positions : List (ℕ × ℚ)) (h : ℕ) : ℚ :=
  (quarter_subst positions (4 * h + 1) + quarter_subst positions (4 * h + 2)
    + quarter_subst positions (4 * h + 3) + quarter_subst positions (4 * h + 4)) / 4

theorem pt15mInner_spec (P : List (ℕ × ℚ)) (h : ℕ) :
    pt15mInner P h (quarter_subst P (4 * h)) =
      (quarter_subst P (4 * h + 4),
       quarter_subst P (4 * h + 1) + quarter_subst P (4 * h + 2)
         + quarter_subst P (4 * h + 3) + quarter_subst P (4 * h + 4), 4) := by
  have e1 : h * 4 + 1 + 0 = 4 * h + 1 := by ring
  have e2 : h * 4 + 1 + 1 = 4 * h + 2 := by ring
  have e3 : h * 4 + 1 + 2 = 4 * h + 3 := by ring
  have e4 : h * 4 + 1 + 3 = 4 * h + 4 := by ring
  have q1 : quarter_subst P (4 * h + 1) = (alookup P (4 * h + 1)).getD (quarter_subst P (4 * h)) := rfl
  have q2 : quarter_subst P (4 * h + 2) = (alookup P (4 * h + 2)).getD (quarter_subst P (4 * h + 1)) := rfl
  have q3 : quarter_subst P (4 * h + 3) = (alookup P (4 * h + 3)).getD (quarter_subst P (4 * h + 2)) := rfl
  have q4 : quarter_subst P (4 * h + 4) = (alookup P (4 * h + 4)).getD (quarter_subst P (4 * h + 3)) := rfl
  simp only [pt15mInner, show List.range 4 = [0, 1, 2, 3] from rfl,
    List.foldl_cons, List.foldl_nil, e1, e2, e3, e4]
  rw [← q1, ← q2, ← q3, ← q4]
  norm_num

theorem alookup_map_range_eq_none (f : ℕ → Int) (w : ℕ → ℚ)
    (hf : ∀ a b, f a = f b → a = b) (n k : ℕ) (hk : n ≤ k) :
    alookup ((List.range n).map fun h => (f h, w h)) (f k) = none :=
  alookup_eq_none_of_forall_ne fun p hp => by
    rcases List.mem_map.mp hp with ⟨h, hh, rfl⟩
    have hlt := List.mem_range.mp hh
    intro he
    have := hf h k he
    omega

theorem alookup_map_range_eq_some (f : ℕ → Int) (w : ℕ → ℚ)
    (hf : ∀ a b, f a = f b → a = b) (n k : ℕ) (hk : k < n) :
    alookup ((List.range n).map fun h => (f h, w h)) (f k) = some (w k) := by
  induction n with
  | zero => omega
  | succ m ih =>
    rw [List.range_succ, List.map_append, alookup_append]
    rcases Nat.lt_or_ge k m with hkm | hkm
    · rw [ih hkm]
    · have hk2 : k = m := by omega
      subst hk2
      rw [alookup_map_range_eq_none f w hf k k le_rfl]
      simp [alookup]

theorem pt15mFold_spec (P : List (ℕ × ℚ)) (start : Int) (rd : Option ℕ) (n : ℕ) :
    (List.range n).foldl (pt15mStep P start rd) (quarter_subst P 0, []) =
      (quarter_subst P (4 * n),
       (List.range n).map fun (h : ℕ) =>
         (start + 60 * (h : Int), optRound rd (hour_average P h))) := by
  induction n with
  | zero => simp
  | succ m ih =>
    have hinj : ∀ a b : ℕ, start + 60 * (a : Int) = start + 60 * (b : Int) → a = b := by
      intro a b hab
      omega
    rw [List.range_succ, List.foldl_append, ih, List.foldl_cons, List.foldl_nil]
    have hfresh : alookup
        ((List.range m).map fun (h : ℕ) =>
          (start + 60 * (h : Int), optRound rd (hour_average P h)))
        (start + 60 * (m : Int)) = none :=
      alookup_map_range_eq_none _ _ hinj m m le_rfl
    have hstep : pt15mStep P start rd
          (quarter_subst P (4 * m),
            (List.range m).map fun (h : ℕ) =>
              (start + 60 * (h : Int), optRound rd (hour_average P h))) m
        = (quarter_subst P (4 * m + 4),
            aset ((List.range m).map fun (h : ℕ) =>
                (start + 60 * (h : Int), optRound rd (hour_average P h)))
              (start + 60 * (m : Int)) (optRound rd (hour_average P m))) := by
      simp only [pt15mStep, pt15mInner_spec]
      norm_num [hour_average]
    rw [hstep, aset_eq_append_of_alookup_none _ _ _ hfresh, List.map_append]
    have h4 : 4 * (m + 1) = 4 * m + 4 := by ring
    rw [h4]
    simp

/-- Full characterization of `process_PT15M_points` for a nonempty positions
dict: it emits exactly the hours `0 .. ceil(max_position/4) - 1` from the
period start, each carrying the (optionally rounded) mean of the four
substituted quarter values of that hour. -/
theorem process_PT15M_points_eq (points : List (ℕ × ℚ)) (start : Int) (rd : Option ℕ)
    (hne : ¬(buildPositions points).isEmpty) :
    process_PT15M_points points start rd =
      (List.range ((maxPosKey (buildPositions points) + 3) / 4)).map
        fun (h : ℕ) => (start + 60 * (h : Int),
          optRound rd (hour_average (buildPositions points) h)) := by
  rw [process_PT15M_points, if_neg hne,
    show (alookup (buildPositions points) (minPosKey (buildPositions points))).getD 0
      = quarter_subst (buildPositions points) 0 from rfl,
    pt15mFold_spec]

/-- C1 counterexample: with the default rounding of the price path
(`round_digits = 2`), an hour whose four quarter values are 0.01, 0.02, 0.02,
0.02 is emitted as 0.02, which is not the exact arithmetic mean 0.0175 of the
four present quarters — refuting the claim that the emitted value is the
arithmetic mean (exact when all four quarters are present). -/
theorem process_PT15M_points_exact_mean_counterexample :
    alookup (process_PT15M_points [(1, 1/100), (2, 2/100), (3, 2/100), (4, 2/100)] 0 (some 2)) 0
      = some (2/100)
    ∧ ((2 : ℚ)/100) ≠ (1/100 + 2/100 + 2/100 + 2/100) / 4 := by
  constructor
  · rw [process_PT15M_points_eq _ _ _ (by decide)]
    norm_num [maxPosKey, buildPositions, aset, hour_average, quarter_subst, alookup, minPosKey,
      optRound, roundHalfUp, List.range_succ]
  · norm_num

/-- C1 (amended): for every quarter-hourly period with a nonempty positions
dict, `process_PT15M_points` emits exactly one value per hour for hours `0`
through `ceil(max_position/4) - 1` (`(max_position + 3) / 4` hours in total)
from the period start, and each hour's value is the declared optional rounding
(2 decimals by default for prices, none for quantities) applied to the
arithmetic mean of its four quarter positions after substituting, for every
missing position, the nearest earlier known position's value, with the
earliest known position's value used as the initial substitute for positions
before it; when all four quarters of an hour are present the mean being
rounded is the exact mean of the four stored values (and thus the emitted
value is the exact mean whenever no rounding is requested). -/
theorem process_PT15M_points_spec (points : List (ℕ × ℚ)) (start : Int) (rd : Option ℕ)
    (hne : ¬(buildPositions points).isEmpty) :
    (process_PT15M_points points start rd
      = (List.range ((maxPosKey (buildPositions points) + 3) / 4)).map
          (fun (h : ℕ) => (start + 60 * (h : Int),
            optRound rd (hour_average (buildPositions points) h))))
    ∧ (∀ h : ℕ, h < (maxPosKey (buildPositions points) + 3) / 4 →
        alookup (process_PT15M_points points start rd) (start + 60 * (h : Int))
          = some (optRound rd (hour_average (buildPositions points) h)))
    ∧ (∀ (h : ℕ) (a b c d : ℚ),
        alookup (buildPositions points) (4 * h + 1) = some a →
        alookup (buildPositions points) (4 * h + 2) = some b →
        alookup (buildPositions points) (4 * h + 3) = some c →
        alookup (buildPositions points) (4 * h + 4) = some d →
        hour_average (buildPositions points) h = (a + b + c + d) / 4) := by
  refine ⟨process_PT15M_points_eq points start rd hne, fun h hh => ?_, ?_⟩
  · rw [process_PT15M_points_eq points start rd hne]
    exact alookup_map_range_eq_some _ _ (fun a b hab => by omega) _ h hh
  · intro h a b c d ha hb hc hd
    have q1 : quarter_subst (buildPositions points) (4 * h + 1) = a := by
      rw [show quarter_subst (buildPositions points) (4 * h + 1)
          = (alookup (buildPositions points) (4 * h + 1)).getD
              (quarter_subst (buildPositions points) (4 * h)) from rfl, ha]
      rfl
    have q2 : quarter_subst (buildPositions points) (4 * h + 2) = b := by
      rw [show quarter_subst (buildPositions points) (4 * h + 2)
          = (alookup (buildPositions points) (4 * h + 2)).getD
              (quarter_subst (buildPositions points) (4 * h + 1)) from rfl, hb]
      rfl
    have q3 : quarter_subst (buildPositions points) (4 * h + 3) = c := by
      rw [show quarter_subst (buildPositions points) (4 * h + 3)
          = (alookup (buildPositions points) (4 * h + 3)).getD
              (quarter_subst (buildPositions points) (4 * h + 2)) from rfl, hc]
      rfl
    have q4 : quarter_subst (buildPositions points) (4 * h + 4) = d := by
      rw [show quarter_subst (buildPositions points) (4 * h + 4)
          = (alookup (buildPositions points) (4 * h + 4)).getD
              (quarter_subst (buildPositions points) (4 * h + 3)) from rfl, hd]
      rfl
    rw [hour_average, q1, q2, q3, q4]

/-- Witness for C1 (amended): positions `{1: 40, 3: 28}` over one hour give
the substituted quarters `{40, 40, 28, 28}` and the documented average 34.0. -/
theorem process_PT15M_points_spec_witness :
    process_PT15M_points [(1, (40 : ℚ)), (3, 28)] 0 (some 2) = [((0 : Int), (34 : ℚ))] := by
  rw [(process_PT15M_points_spec [(1, (40 : ℚ)), (3, 28)] 0 (some 2) (by decide)).1]
  norm_num [maxPosKey, buildPositions, aset, hour_average, quarter_subst, alookup, minPosKey,
    optRound, roundHalfUp, List.range_succ]

theorem mem_keys_aset {α β : Type} [DecidableEq α] (l : List (α × β)) (k a : α) (v : β)
    (h : a ∈ (aset l k v).map Prod.fst) : a ∈ l.map Prod.fst ∨ a = k := by
  induction l with
  | nil => simp [aset] at h; simp [h]
  | cons p r ih =>
    by_cases hpk : p.1 = k
    · simp [aset, hpk] at h
      rcases h with h | h
      · exact Or.inr h
      · exact Or.inl (by simp [h])
    · simp [aset, hpk] at h
      rcases h with h | h
      · exact Or.inl (by simp [h])
      · rcases ih (List.mem_map.mpr (by simpa using h)) with h2 | h2
        · exact Or.inl (by simp at h2 ⊢; exact Or.inr h2)
        · exact Or.inr h2

theorem aset_keys_nodup {α β : Type} [DecidableEq α] (l : List (α × β)) (k : α) (v : β)
    (h : (l.map Prod.fst).Nodup) : ((aset l k v).map Prod.fst).Nodup := by
  induction l with
  | nil => simp [aset]
  | cons p r ih =>
    simp only [List.map_cons, List.nodup_cons] at h
    by_cases hpk : p.1 = k
    · simp only [aset, if_pos hpk, List.map_cons, List.nodup_cons]
      exact ⟨hpk ▸ h.1, h.2⟩
    · simp only [aset, if_neg hpk, List.map_cons, List.nodup_cons]
      refine ⟨fun hmem => ?_, ih h.2⟩
      rcases mem_keys_aset r k p.1 v hmem with h2 | h2
      · exact h.1 h2
      · exact hpk h2

theorem foldl_aset_keys_nodup {α β γ : Type} [DecidableEq α]
    (f : γ → α) (g : γ → β) (pts : List γ) :
    ∀ acc : List (α × β), (acc.map Prod.fst).Nodup →
    ((pts.foldl (fun d p => aset d (f p) (g p)) acc).map Prod.fst).Nodup := by
  induction pts with
  | nil => exact fun acc h => h
  | cons p r ih => exact fun acc h => ih _ (aset_keys_nodup acc (f p) (g p) h)

theorem foldl_aset_isSome {α β γ : Type} [DecidableEq α]
    (f : γ → α) (g : γ → β) (pts : List γ) :
    ∀ (acc : List (α × β)) (k : α),
    ((alookup acc k).isSome ∨ ∃ p ∈ pts, f p = k) →
    (alookup (pts.foldl (fun d p => aset d (f p) (g p)) acc) k).isSome := by
  induction pts with
  | nil =>
    intro acc k h
    rcases h with h | ⟨p, hp, _⟩
    · exact h
    · simp at hp
  | cons p r ih =>
    intro acc k h
    simp only [List.foldl_cons]
    by_cases hk : f p = k
    · refine ih _ _ (Or.inl ?_)
      rw [hk, alookup_aset_self]
      rfl
    · refine ih _ _ ?_
      rcases h with h | ⟨q, hq, hqk⟩
      · exact Or.inl (by rw [alookup_aset_ne _ _ _ _ (fun he => hk he.symm)]; exact h)
      · rcases List.mem_cons.mp hq with hq1 | hq2
        · exact absurd (hq1 ▸ hqk) hk
        · exact Or.inr ⟨q, hq2, hqk⟩

theorem fillGo_nil (stop : Int) (fuel : ℕ) :
    ∀ cur : Int, fillGo stop fuel [] cur none = [] := by
  induction fuel with
  | zero => intro cur; rfl
  | succ n ih =>
    intro cur
    by_cases hc : cur < stop
    · simp [fillGo, hc, alookup, ih]
    · simp [fillGo, hc]

theorem last_known_isSome_of_start (s : Series) (start : Int) (k : ℕ)
    (h : (alookup s start).isSome) : (last_known s start k).isSome := by
  induction k with
  | zero => exact h
  | succ m ih =>
    simp only [last_known]
    cases alookup s (start + 60 * ((m : Int) + 1)) with
    | some v => rfl
    | none => exact ih

/-- C3: after a period's points are processed, each grid hour
`start + 60*k < stop` of the filled series holds exactly the most recent known
value of the processed series as of that hour (so hours at or after some
populated hour are filled by holding that value forward, and hours before
every populated hour stay unpopulated); filling an empty series adds nothing;
and consequently for every hourly period whose points include position 1 the
result has an entry (exactly one, keys staying duplicate-free) for every hour
in `[start, stop)`. -/
theorem fill_missing_hours_spec :
    (∀ (s : Series) (start stop : Int) (k : ℕ),
        start + 60 * (k : Int) < stop →
        alookup (fill_missing_hours s start stop) (start + 60 * (k : Int))
          = last_known s start k)
    ∧ (∀ start stop : Int, fill_missing_hours [] start stop = [])
    ∧ (∀ (points : List (ℕ × ℚ)) (start stop : Int) (rd : Option ℕ) (k : ℕ) (v : ℚ),
        (1, v) ∈ points →
        start + 60 * (k : Int) < stop →
        (alookup (fill_missing_hours (process_PT60M_points points start rd) start stop)
            (start + 60 * (k : Int))).isSome)
    ∧ (∀ (s : Series) (start stop : Int), (s.map Prod.fst).Nodup →
        ((fill_missing_hours s start stop).map Prod.fst).Nodup) := by
  refine ⟨fill_missing_hours_lookup, ?_, ?_, ?_⟩
  · intro start stop
    rw [fill_missing_hours, show alookup ([] : Series) start = none from rfl, fillGo_nil]
  · intro points start stop rd k v hv hk
    rw [fill_missing_hours_lookup _ _ _ _ hk]
    refine last_known_isSome_of_start _ _ _ ?_
    refine foldl_aset_isSome _ _ points [] start (Or.inr ⟨(1, v), hv, ?_⟩)
    norm_num
  · intro s start stop hnd
    rcases fillGo_extends stop (((stop - start).toNat + 59) / 60) s start (alookup s start)
      with ⟨ext, he, hp, hextnd⟩
    rw [fill_missing_hours, he, List.map_append, List.nodup_append]
    refine ⟨hnd, hextnd, ?_⟩
    intro a ha hb
    rcases List.mem_map.mp hb with ⟨p, hpm, hpk⟩
    rcases hp p hpm with ⟨-, -, hnone⟩
    have h1 := alookup_isSome_of_mem_keys s a ha
    rw [hpk] at hnone
    rw [hnone] at h1
    simp at h1

/-- Witness for C3: a series populated at the period start `0`; the hour at
offset 2 inside `[0, 180)` is filled with the value held forward. -/
theorem fill_missing_hours_spec_witness :
    alookup (fill_missing_hours [((0 : Int), (10 : ℚ))] 0 180) 120 = some 10 := by
  have h := fill_missing_hours_spec.1 [((0 : Int), (10 : ℚ))] 0 180 2 (by norm_num)
  norm_num at h
  rw [h, show (2 : ℕ) = 1 + 1 from rfl, last_known, last_known, last_known]
  norm_num [alookup]

/-- Python `series.update(d)`: store every entry of `d` into `series` in
order, overwriting existing keys. -/
def updateSeries (series d : Series) : Series :=
  d.foldl (fun a p => aset a p.1 p.2) series

/-- Python `load[t] += v` on a `defaultdict(float)`: add to the stored value,
treating a missing key as `0.0`. -/
def addInto (s : Series) (t : Int) (v : ℚ) : Series :=
  match alookup s t with
  | some w => aset s t (w + v)
  | none => aset s t v

/-- Document-merge step of `EntsoeClient.query_day_ahead_prices` (api_client.py
lines 225-237): `series.update(self.parse_price_document(document))` over every
document returned for the request; the final `dict(sorted(series.items()))`
reorders entries only and does not change the key→value mapping. -/
def query_day_ahead_prices_merge (docs : List Series) : Series :=
  docs.foldl updateSeries []

/-- Document-merge step of `EntsoeClient.query_total_load_forecast`
(api_client.py lines 322-330), identical in `query_generation_forecast`:
`load[timestamp] += float(value)` on a `defaultdict(float)` for every entry of
every parsed document; the final key-sorted rebuild reorders entries only. -/
def query_total_load_forecast_merge (docs : List Series) : Series :=
  docs.foldl (fun load d => d.foldl (fun a p => addInto a p.1 p.2) load) []

theorem addInto_lookup_self (s : Series) (t : Int) (v : ℚ) :
    alookup (addInto s t v) t = some ((alookup s t).getD 0 + v) := by
  rw [addInto]
  cases h : alookup s t with
  | some w => simp [alookup_aset_self, h]
  | none => simp [alookup_aset_self, h]

theorem addInto_lookup_ne (s : Series) (t t' : Int) (v : ℚ) (h : t' ≠ t) :
    alookup (addInto s t v) t' = alookup s t' := by
  rw [addInto]
  cases alookup s t with
  | some w => exact alookup_aset_ne s t t' _ h
  | none => exact alookup_aset_ne s t t' _ h

theorem alookup_of_mem_nodup {s : Series} {k : Int} {v : ℚ}
    (hnd : (s.map Prod.fst).Nodup) (hmem : (k, v) ∈ s) : alookup s k = some v := by
  induction s with
  | nil => simp at hmem
  | cons p r ih =>
    simp only [List.map_cons, List.nodup_cons] at hnd
    rcases List.mem_cons.mp hmem with h | h
    · rw [← h]
      simp [alookup]
    · have hk : p.1 ≠ k := by
        intro he
        exact hnd.1 (he ▸ List.mem_map.mpr ⟨(k, v), h, rfl⟩)
      simp only [alookup, if_neg hk]
      exact ih hnd.2 h

theorem foldl_addInto_doc (d : Series) (hnd : (d.map Prod.fst).Nodup) :
    ∀ (acc : Series) (t : Int),
    alookup (d.foldl (fun a p => addInto a p.1 p.2) acc) t =
      match alookup d t with
      | some v => some ((alookup acc t).getD 0 + v)
      | none => alookup acc t := by
  induction d with
  | nil => intro acc t; rfl
  | cons p r ih =>
    intro acc t
    simp only [List.map_cons, List.nodup_cons] at hnd
    simp only [List.foldl_cons]
    by_cases ht : p.1 = t
    · subst ht
      have hrt : alookup r p.1 = none := by
        refine alookup_eq_none_of_forall_ne fun q hq he => ?_
        exact hnd.1 (he ▸ List.mem_map.mpr ⟨q, hq, rfl⟩)
      rw [ih hnd.2 _ p.1, hrt, addInto_lookup_self]
      simp [alookup]
    · rw [ih hnd.2 _ t, addInto_lookup_ne _ _ _ _ fun he => ht he.symm]
      simp [alookup, ht]

theorem sum_zero_of_all_none (docs : List Series) (t : Int)
    (h : ∀ d ∈ docs, alookup d t = none) :
    (docs.map fun d => ((alookup d t).getD 0 : ℚ)).sum = 0 := by
  induction docs with
  | nil => simp
  | cons d rest ih =>
    simp only [List.map_cons, List.sum_cons, h d (List.mem_cons_self d rest)]
    rw [ih fun e he => h e (List.mem_cons_of_mem d he)]
    simp

theorem query_sum_merge_go (docs : List Series) (hnd : ∀ d ∈ docs, (d.map Prod.fst).Nodup) :
    ∀ (acc : Series) (t : Int),
    alookup (docs.foldl (fun load d => d.foldl (fun a p => addInto a p.1 p.2) load) acc) t =
      if ∃ d ∈ docs, (alookup d t).isSome
      then some ((alookup acc t).getD 0 + (docs.map fun d => ((alookup d t).getD 0 : ℚ)).sum)
      else alookup acc t := by
  induction docs with
  | nil => intro acc t; simp
  | cons d rest ih =>
    intro acc t
    have hd := foldl_addInto_doc d (hnd d (List.mem_cons_self d rest))
    have hrest : ∀ e ∈ rest, (e.map Prod.fst).Nodup :=
      fun e he => hnd e (List.mem_cons_of_mem d he)
    simp only [List.foldl_cons]
    rw [ih hrest]
    by_cases hex : ∃ e ∈ rest, (alookup e t).isSome
    · rw [if_pos hex, if_pos (by rcases hex with ⟨e, he, hse⟩; exact ⟨e, List.mem_cons_of_mem d he, hse⟩)]
      rw [hd acc t]
      cases hdt : alookup d t with
      | some v => simp [List.sum_cons, hdt]; ring
      | none => simp [List.sum_cons, hdt]
    · rw [if_neg hex, hd acc t]
      cases hdt : alookup d t with
      | some v =>
        rw [if_pos ⟨d, List.mem_cons_self d rest, by rw [hdt]; rfl⟩]
        have hz : (rest.map fun e => ((alookup e t).getD 0 : ℚ)).sum = 0 := by
          refine sum_zero_of_all_none rest t fun e he => ?_
          cases het : alookup e t with
          | none => rfl
          | some w => exact absurd ⟨e, he, by rw [het]; rfl⟩ hex
        simp [List.sum_cons, hdt, hz]
      | none =>
        rw [if_neg ?_]
        intro ⟨e, he, hse⟩
        rcases List.mem_cons.mp he with h1 | h2
        · rw [h1, hdt] at hse; simp at hse
        · exact hex ⟨e, h2, hse⟩

theorem aset_eq_self_of_alookup (s : Series) (k : Int) (v : ℚ)
    (h : alookup s k = some v) : aset s k v = s := by
  induction s with
  | nil => simp [alookup] at h
  | cons p r ih =>
    by_cases hpk : p.1 = k
    · simp only [alookup, if_pos hpk] at h
      have : (k, v) = p := by
        rcases p with ⟨a, b⟩
        simp at hpk h
        simp [hpk, h]
      simp [aset, hpk, this]
    · simp only [alookup, if_neg hpk] at h
      simp [aset, hpk, ih h]

theorem updateSeries_id_of_submap (d : Series) :
    ∀ acc : Series, (∀ p ∈ d, alookup acc p.1 = some p.2) → updateSeries acc d = acc := by
  induction d with
  | nil => intro acc _; rfl
  | cons p r ih =>
    intro acc h
    simp only [updateSeries, List.foldl_cons]
    rw [show aset acc p.1 p.2 = acc from
      aset_eq_self_of_alookup acc p.1 p.2 (h p (List.mem_cons_self p r))]
    exact ih acc fun q hq => h q (List.mem_cons_of_mem p hq)

theorem foldl_aset_of_disjoint (d : Series) :
    ∀ acc : Series, (d.map Prod.fst).Nodup → (∀ p ∈ d, alookup acc p.1 = none) →
    d.foldl (fun a p => aset a p.1 p.2) acc = acc ++ d := by
  induction d with
  | nil => intro acc _ _; simp
  | cons p r ih =>
    intro acc hnd hfresh
    simp only [List.map_cons, List.nodup_cons] at hnd
    simp only [List.foldl_cons]
    rw [aset_eq_append_of_alookup_none acc p.1 p.2 (hfresh p (List.mem_cons_self p r))]
    have : acc ++ [(p.1, p.2)] = acc ++ [p] := by simp
    rw [this, ih (acc ++ [p]) hnd.2 ?_, List.append_assoc]
    · rfl
    · intro q hq
      rcases p with ⟨a, b⟩
      refine (alookup_append_single_ne acc a b q.1 ?_).trans
        (hfresh q (List.mem_cons_of_mem _ hq))
      intro he
      exact hnd.1 (he ▸ List.mem_map.mpr ⟨q, hq, rfl⟩)

theorem updateSeries_nil (s : Series) (hnd : (s.map Prod.fst).Nodup) :
    updateSeries [] s = s := by
  rw [updateSeries, foldl_aset_of_disjoint s [] hnd fun p _ => rfl]
  rfl

/-- C2 counterexample: the day-ahead-price query merges documents with
`dict.update`, not summation — merging a parsed document with an identical
copy of itself leaves every value unchanged instead of doubling it.  With the
single-entry document `{0: 40}` the merged series still maps the timestamp to
40, not 80. -/
theorem query_day_ahead_prices_merge_counterexample :
    alookup (query_day_ahead_prices_merge [[((0 : Int), (40 : ℚ))], [((0 : Int), (40 : ℚ))]]) 0
      = some 40
    ∧ (40 : ℚ) ≠ 40 + 40 := by
  constructor
  · norm_num [query_day_ahead_prices_merge, updateSeries, aset, alookup]
  · norm_num

/-- C2 (amended): the quantity queries of the Query Layer (total-load
forecast, and identically generation forecast, generation-per-type,
wind/solar forecast) merge multiple documents by assigning to each timestamp
the sum of the values the individually parsed documents assign to it, so
merging a parsed document with an identical copy of itself doubles every
value; the day-ahead-price query instead merges with `dict.update`
(later documents overwrite), so its self-merge returns the document
unchanged. -/
theorem query_merge_spec :
    (∀ docs : List Series, (∀ d ∈ docs, (d.map Prod.fst).Nodup) → ∀ t : Int,
        alookup (query_total_load_forecast_merge docs) t =
          if ∃ d ∈ docs, (alookup d t).isSome
          then some ((docs.map fun d => ((alookup d t).getD 0 : ℚ)).sum)
          else none)
    ∧ (∀ (s : Series) (t : Int) (v : ℚ), (s.map Prod.fst).Nodup → alookup s t = some v →
        alookup (query_total_load_forecast_merge [s, s]) t = some (v + v))
    ∧ (∀ s : Series, (s.map Prod.fst).Nodup →
        query_day_ahead_prices_merge [s, s] = s) := by
  have main : ∀ docs : List Series, (∀ d ∈ docs, (d.map Prod.fst).Nodup) → ∀ t : Int,
      alookup (query_total_load_forecast_merge docs) t =
        if ∃ d ∈ docs, (alookup d t).isSome
        then some ((docs.map fun d => ((alookup d t).getD 0 : ℚ)).sum)
        else none := by
    intro docs hnd t
    rw [query_total_load_forecast_merge, query_sum_merge_go docs hnd [] t]
    by_cases hex : ∃ d ∈ docs, (alookup d t).isSome
    · rw [if_pos hex, if_pos hex]
      simp [alookup]
    · rw [if_neg hex, if_neg hex]
      rfl
  refine ⟨main, fun s t v hnd hv => ?_, fun s hnd => ?_⟩
  · have hnd2 : ∀ d ∈ [s, s], (d.map Prod.fst).Nodup := by
      intro d hd
      rcases List.mem_cons.mp hd with h | h
      · rw [h]; exact hnd
      · simp at h; rw [h]; exact hnd
    rw [main [s, s] hnd2 t]
    rw [if_pos ⟨s, List.mem_cons_self s [s], by rw [hv]; rfl⟩]
    simp [hv]
  · show updateSeries (updateSeries [] s) s = s
    rw [updateSeries_nil s hnd]
    exact updateSeries_id_of_submap s s fun p hp =>
      alookup_of_mem_nodup hnd (by simpa using hp)

/-- Witness for C2 (amended): merging the parsed single-entry document
`{0: 40}` with an identical copy under the summing merge doubles the value. -/
theorem query_merge_spec_witness :
    alookup (query_total_load_forecast_merge
      [[((0 : Int), (40 : ℚ))], [((0 : Int), (40 : ℚ))]]) 0 = some 80 := by
  have h := query_merge_spec.2.1 [((0 : Int), (40 : ℚ))] 0 40 (by simp)
    (by simp [alookup])
  rw [h]
  norm_num

theorem mem_keys_of_alookup_isSome {α β : Type} [DecidableEq α]
    {l : List (α × β)} {k : α} (h : (alookup l k).isSome) : k ∈ l.map Prod.fst := by
  induction l with
  | nil => simp [alookup] at h
  | cons p r ih =>
    by_cases hpk : p.1 = k
    · simp [hpk]
    · simp only [alookup, if_neg hpk] at h
      simp [ih h]

/-- One `Period` element of a price document, with the XML fields the parser
reads: the raw `resolution` text, the parsed `timeInterval` start and end, and
the `(position, price.amount)` point pairs in document order. -/
structure RawPeriod where
  resolution : String
  start : Int
  stop : Int
  points : List (ℕ × ℚ)

/-- `EntsoeClient._normalize_resolution` (api_client.py lines 176-181):
`PT60M`/`PT1H` normalize to hourly, `PT15M` stays quarter-hourly, anything
else raises `ValueError` (modelled as `none`; the caller skips the period). -/
def normalize_resolution (r : String) : Option String :=
  if r = "PT60M" ∨ r = "PT1H" then some "PT60M"
  else if r = "PT15M" then some "PT15M"
  else none

/-- Body of the period loop of `EntsoeClient.parse_price_document`
(api_client.py lines 422-453): skip the period on an unsupported resolution;
skip it if `start_time in series` (the duplicate-period guard); otherwise
merge the processed points into the accumulated series with `series.update`
and run `_fill_missing_hours` over `[start, end)`.  (The source's
`start_time.replace(minute=0)` on line 434 discards its result and has no
effect.)  Prices use `value_tag="price.amount"` and `round_digits=2`. -/
def parse_period_step (series : Series) (p : RawPeriod) : Series :=
  match normalize_resolution p.resolution with
  | none => series
  | some res =>
    if (alookup series p.start).isSome then series
    else
      fill_missing_hours
        (updateSeries series
          (if res = "PT60M" then process_PT60M_points p.points p.start (some 2)
           else process_PT15M_points p.points p.start (some 2)))
        p.start p.stop

/-- `EntsoeClient.parse_price_document` (api_client.py lines 411-455): fold
the period-processing step over every period of every `TimeSeries` element. -/
def parse_price_document (doc : List (List RawPeriod)) : Series :=
  doc.foldl (fun series ts => ts.foldl parse_period_step series) []

/-- C8 counterexample: two periods with the identical start timestamp 0, the
first containing only a point at position 2 (value 10).  The first period
never populates the start timestamp itself, so the guard does not fire: the
second period is processed and its point at position 2 (value 7) overwrites
the value 10 produced by the first period. -/
theorem parse_price_document_duplicate_counterexample :
    alookup (parse_price_document [[⟨"PT60M", 0, 120, [(2, 10)]⟩]]) 60 = some 10
    ∧ alookup (parse_price_document
        [[⟨"PT60M", 0, 120, [(2, 10)]⟩, ⟨"PT60M", 0, 120, [(1, 5), (2, 7)]⟩]]) 60 = some 7
    ∧ (10 : ℚ) ≠ 7 := by
  refine ⟨?_, ?_, by norm_num⟩
  · norm_num [parse_price_document, parse_period_step, normalize_resolution, updateSeries,
      process_PT60M_points, fill_missing_hours, fillGo, aset, alookup, optRound, roundHalfUp]
  · norm_num [parse_price_document, parse_period_step, normalize_resolution, updateSeries,
      process_PT60M_points, fill_missing_hours, fillGo, aset, alookup, optRound, roundHalfUp]

/-- C8 (amended): during parsing, a period is skipped entirely — leaving the
accumulated series unchanged — whenever its start timestamp is already
populated in the series.  Hence when two periods start at the identical
timestamp and the first period populated that timestamp (which holds in
particular for every hourly period having a point at position 1), the second
period is skipped and none of its points alter any value produced by the
first.  If the first period never populated the shared start timestamp, the
guard does not fire (see the counterexample). -/
theorem parse_price_document_duplicate_period (p1 p2 : RawPeriod) :
    (∀ series : Series, (alookup series p2.start).isSome →
        parse_period_step series p2 = series)
    ∧ (p2.start = p1.start →
        (alookup (parse_period_step [] p1) p1.start).isSome →
        parse_price_document [[p1, p2]] = parse_price_document [[p1]])
    ∧ (p1.resolution = "PT60M" → (∃ v, (1, v) ∈ p1.points) →
        (alookup (parse_period_step [] p1) p1.start).isSome) := by
  have hskip : ∀ series : Series, (alookup series p2.start).isSome →
      parse_period_step series p2 = series := by
    intro series h
    cases hn : normalize_resolution p2.resolution with
    | none => simp [parse_period_step, hn]
    | some res => simp [parse_period_step, hn, h]
  refine ⟨hskip, fun hstart hpop => ?_, fun hres hpos => ?_⟩
  · show parse_period_step (parse_period_step [] p1) p2 = parse_period_step [] p1
    exact hskip _ (by rw [hstart]; exact hpop)
  · rcases hpos with ⟨v, hv⟩
    have hproc : (alookup (process_PT60M_points p1.points p1.start (some 2)) p1.start).isSome := by
      refine foldl_aset_isSome _ _ p1.points [] p1.start (Or.inr ⟨(1, v), hv, ?_⟩)
      norm_num
    have hupd : (alookup (updateSeries [] (process_PT60M_points p1.points p1.start (some 2)))
        p1.start).isSome := by
      refine foldl_aset_isSome Prod.fst Prod.snd _ [] p1.start (Or.inr ?_)
      rcases List.mem_map.mp (mem_keys_of_alookup_isSome hproc) with ⟨q, hq, hqk⟩
      exact ⟨q, hq, hqk⟩
    rcases Option.isSome_iff_exists.mp hupd with ⟨w, hw⟩
    have hfill := (fill_missing_hours_frame
      (updateSeries [] (process_PT60M_points p1.points p1.start (some 2)))
      p1.start p1.stop).2 p1.start w hw
    rw [parse_period_step, show normalize_resolution p1.resolution = some "PT60M" by
        rw [hres]; rfl]
    simp [alookup, hfill]

/-- Witness for C8 (amended): with both hourly periods starting at 0 and the
first period populating its start (point at position 1), the second period is
skipped and parsing both periods equals parsing only the first. -/
theorem parse_price_document_duplicate_period_witness :
    parse_price_document [[⟨"PT60M", 0, 120, [(1, 5)]⟩, ⟨"PT60M", 0, 120, [(1, 9)]⟩]]
      = parse_price_document [[⟨"PT60M", 0, 120, [(1, 5)]⟩]] :=
  (parse_price_document_duplicate_period ⟨"PT60M", 0, 120, [(1, 5)]⟩
      ⟨"PT60M", 0, 120, [(1, 9)]⟩).2.1 rfl
    ((parse_price_document_duplicate_period ⟨"PT60M", 0, 120, [(1, 5)]⟩
      ⟨"PT60M", 0, 120, [(1, 9)]⟩).2.2 rfl ⟨5, by simp⟩)

/-- `STALENESS_MULTIPLIER` (const.py line 24). -/
def STALENESS_MULTIPLIER : Int := 3

/-- `EntsoeBaseCoordinator.is_data_stale` (coordinator.py lines 209-228): stale
when no refresh has ever succeeded, when no data is available, or when the
time since the last success exceeds `update_interval * STALENESS_MULTIPLIER`.
Times and the interval are in minutes. -/
def is_data_stale (last_successful_update : Option Int) (data : Series)
    (now : Int) (update_interval : Int) : Bool :=
  match last_successful_update with
  | none => true
  | some t =>
    if data.isEmpty then true
    else decide (now - t > update_interval * STALENESS_MULTIPLIER)

/-- C4 counterexample: a coordinator whose last refresh succeeded just now
(elapsed 0 ≤ 3×interval) but whose data mapping is empty reports stale, so
`is_data_stale` is not equivalent to "never succeeded or elapsed > 3×interval". -/
theorem is_data_stale_counterexample :
    is_data_stale (some 0) [] 0 60 = true
    ∧ ¬((some 0 : Option Int) = none ∨ (0 : Int) - 0 > 60 * STALENESS_MULTIPLIER) := by
  refine ⟨rfl, ?_⟩
  rintro (h | h)
  · exact Option.noConfusion h
  · norm_num [STALENESS_MULTIPLIER] at h

/-- C4 (amended): `is_data_stale` returns True iff no refresh has ever
succeeded, or the coordinator's data mapping is empty, or the elapsed time
since the last successful update exceeds 3 times the configured update
interval; with non-empty data, a 1-hour interval and a last success 4 hours in
the past it returns True, and at exactly 2 hours past it returns False. -/
theorem is_data_stale_spec :
    (∀ (ls : Option Int) (data : Series) (now iv : Int),
        is_data_stale ls data now iv = true ↔
          ls = none ∨ data = [] ∨ ∃ t, ls = some t ∧ now - t > iv * STALENESS_MULTIPLIER)
    ∧ is_data_stale (some 0) [((0 : Int), (1 : ℚ))] 240 60 = true
    ∧ is_data_stale (some 0) [((0 : Int), (1 : ℚ))] 120 60 = false := by
  refine ⟨fun ls data now iv => ?_, by norm_num [is_data_stale, STALENESS_MULTIPLIER],
    by norm_num [is_data_stale, STALENESS_MULTIPLIER]⟩
  cases ls with
  | none => simp [is_data_stale]
  | some t =>
    cases data with
    | nil => simp [is_data_stale]
    | cons p r => simp [is_data_stale]

/-- `EntsoeBaseCoordinator._sorted_timestamps` (coordinator.py lines 86-89):
the sorted list of the series' keys (`[]` when there is no data). -/
def sorted_timestamps (data : Series) : List Int :=
  List.insertionSort (· ≤ ·) (data.map Prod.fst)

/-- `EntsoeBaseCoordinator._select_current_timestamp` (coordinator.py lines
230-238): the latest timestamp `≤ ref`, scanned from the sorted list in
reverse; if every timestamp is after `ref`, the last (latest) timestamp; `none`
only when the series is empty. -/
def select_current_timestamp (data : Series) (ref : Int) : Option Int :=
  match (sorted_timestamps data).reverse.find? (fun t => decide (t ≤ ref)) with
  | some t => some t
  | none => (sorted_timestamps data).getLast?

/-- `EntsoeBaseCoordinator.current_timestamp` (coordinator.py lines 247-248). -/
def current_timestamp (data : Series) (ref : Int) : Option Int :=
  select_current_timestamp data ref

theorem sorted_le_getLast (l : List Int) (hl : l ≠ []) (hs : l.Sorted (· ≤ ·)) :
    ∀ x ∈ l, x ≤ l.getLast hl := by
  induction l with
  | nil => exact absurd rfl hl
  | cons a r ih =>
    rcases List.sorted_cons.mp hs with ⟨ha, hr⟩
    intro x hx
    cases r with
    | nil =>
      simp at hx
      simp [hx, List.getLast]
    | cons b r2 =>
      rw [List.getLast_cons (by simp)]
      rcases List.mem_cons.mp hx with h | h
      · subst h
        exact le_trans (ha _ (List.getLast_mem _)) le_rfl
      · exact ih (by simp) hr x h

/-- C9: for a non-empty series, if the reference time is strictly earlier
than every timestamp, `current_timestamp` returns the latest (maximal)
timestamp of the series — not `none` and not the earliest. -/
theorem current_timestamp_before_all (data : Series) (ref : Int)
    (hne : data ≠ []) (hall : ∀ t ∈ data.map Prod.fst, ref < t) :
    ∃ m, current_timestamp data ref = some m ∧ m ∈ data.map Prod.fst ∧
      ∀ t ∈ data.map Prod.fst, t ≤ m := by
  have hmem : ∀ t, t ∈ sorted_timestamps data ↔ t ∈ data.map Prod.fst := fun t =>
    (List.perm_insertionSort (· ≤ ·) (data.map Prod.fst)).mem_iff
  have hsne : sorted_timestamps data ≠ [] := by
    intro h
    have : data.map Prod.fst = [] :=
      List.eq_nil_of_length_eq_zero (by
        have := (List.perm_insertionSort (· ≤ ·) (data.map Prod.fst)).length_eq
        rw [show List.insertionSort (· ≤ ·) (data.map Prod.fst) = sorted_timestamps data
          from rfl, h] at this
        simpa using this.symm)
    exact hne (List.map_eq_nil_iff.mp this)
  have hfind : (sorted_timestamps data).reverse.find? (fun t => decide (t ≤ ref)) = none := by
    rw [List.find?_eq_none]
    intro x hx
    have hxm : x ∈ sorted_timestamps data := List.mem_reverse.mp hx
    have := hall x ((hmem x).mp hxm)
    simp
    omega
  have hlast := List.getLast?_eq_getLast _ hsne
  refine ⟨(sorted_timestamps data).getLast hsne, ?_, ?_, ?_⟩
  · rw [current_timestamp, select_current_timestamp, hfind, hlast]
  · exact (hmem _).mp (List.getLast_mem hsne)
  · intro t ht
    exact sorted_le_getLast _ hsne (List.sorted_insertionSort _ _) t ((hmem t).mpr ht)

/-- Witness for C9: the series with timestamps 100 and 200 and reference 0
(before every timestamp) yields the latest timestamp 200. -/
theorem current_timestamp_before_all_witness :
    ∃ m, current_timestamp [((100 : Int), (1 : ℚ)), (200, 2)] 0 = some m
      ∧ m ∈ ([((100 : Int), (1 : ℚ)), (200, 2)]).map Prod.fst
      ∧ ∀ t ∈ ([((100 : Int), (1 : ℚ)), (200, 2)]).map Prod.fst, t ≤ m :=
  current_timestamp_before_all [((100 : Int), (1 : ℚ)), (200, 2)] 0 (by simp)
    (by intro t ht; simp at ht; rcases ht with h | h <;> omega)

/-- An error raised while contacting one endpoint: an `HTTPError` carrying a
status code (from `raise_for_status`), or a network-level
`RequestException` (timeouts included), tagged by an opaque code. -/
inductive RequestError where
  | http (status : ℕ)
  | network (code : ℕ)
deriving DecidableEq

/-- Outcome of `session.get` + `raise_for_status` at one endpoint (the urllib3
transport retry with `status_forcelist=(500, 502, 503, 504)` sits below this,
inside the session). -/
inductive AttemptOutcome where
  | ok (body : ℕ)
  | err (e : RequestError)
deriving DecidableEq

/-- Result of `_base_request`: a successful response, a re-raised error, or
the defensive `RuntimeError` when no error was captured. -/
inductive BaseRequestResult where
  | success (body : ℕ)
  | raised (e : RequestError)
  | runtimeError
deriving DecidableEq

/-- The statuses `(500, 502, 503, 504)` checked at api_client.py line 116. -/
def retry_statuses : List ℕ := [500, 502, 503, 504]

/-- Endpoint loop of `EntsoeClient._base_request` (api_client.py lines
102-132), folded over the outcomes at each base URL in order: a response
returns immediately; an `HTTPError` whose status is in `(500, 502, 503, 504)`
records the error and continues with the next endpoint; any other `HTTPError`
(4xx in particular) re-raises immediately; a network `RequestException`
records the error and continues; when the endpoints are exhausted the recorded
last error is raised, or `RuntimeError` when none was captured. -/
def base_request_go : List AttemptOutcome → Option RequestError → BaseRequestResult
  | [], none => .runtimeError
  | [], some e => .raised e
  | .ok b :: _, _ => .success b
  | .err (.http s) :: rest, _ =>
    if s ∈ retry_statuses then base_request_go rest (some (.http s))
    else .raised (.http s)
  | .err (.network c) :: rest, _ => base_request_go rest (some (.network c))

/-- `EntsoeClient._base_request`, starting with `last_error = None`. -/
def base_request (attempts : List AttemptOutcome) : BaseRequestResult :=
  base_request_go attempts none

/-- An attempt outcome after which the loop proceeds to the next endpoint. -/
def isContinuable : AttemptOutcome → Bool
  | .err (.http s) => decide (s ∈ retry_statuses)
  | .err (.network _) => true
  | .ok _ => false

/-- The `last_error` accumulation of the loop. -/
def lastErrorOf (attempts : List AttemptOutcome) (acc : Option RequestError) :
    Option RequestError :=
  attempts.foldl
    (fun a o =>
      match o with
      | .err e => some e
      | .ok _ => a) acc

/-- C6: the Transport Client's endpoint loop never fails over on a 4xx
response — any status outside `(500, 502, 503, 504)`, so every 4xx including
401, is re-raised immediately without trying the remaining endpoints; it moves
to the next endpoint exactly after a forcelist 5xx status or a network-level
exception; and when every endpoint fails with such a continuable error, it
raises the last encountered error. -/
theorem base_request_spec :
    (∀ (s : ℕ) (rest : List AttemptOutcome) (last : Option RequestError),
        400 ≤ s → s < 500 →
        base_request_go (.err (.http s) :: rest) last = .raised (.http s))
    ∧ (∀ (s : ℕ) (rest : List AttemptOutcome) (last : Option RequestError),
        s ∉ retry_statuses →
        base_request_go (.err (.http s) :: rest) last = .raised (.http s))
    ∧ (∀ (s : ℕ) (rest : List AttemptOutcome) (last : Option RequestError),
        s ∈ retry_statuses →
        base_request_go (.err (.http s) :: rest) last
          = base_request_go rest (some (.http s)))
    ∧ (∀ (c : ℕ) (rest : List AttemptOutcome) (last : Option RequestError),
        base_request_go (.err (.network c) :: rest) last
          = base_request_go rest (some (.network c)))
    ∧ (∀ attempts : List AttemptOutcome,
        (∀ a ∈ attempts, isContinuable a = true) →
        ∀ last : Option RequestError,
        base_request_go attempts last =
          match lastErrorOf attempts last with
          | some e => .raised e
          | none => .runtimeError) := by
  have hskip : ∀ (s : ℕ) (rest : List AttemptOutcome) (last : Option RequestError),
      s ∉ retry_statuses →
      base_request_go (.err (.http s) :: rest) last = .raised (.http s) := by
    intro s rest last h
    simp [base_request_go, h]
  have hexhaust : ∀ attempts : List AttemptOutcome,
      (∀ a ∈ attempts, isContinuable a = true) →
      ∀ last : Option RequestError,
      base_request_go attempts last =
        match lastErrorOf attempts last with
        | some e => .raised e
        | none => .runtimeError := by
    intro attempts
    induction attempts with
    | nil =>
      intro _ last
      cases last with
      | none => rfl
      | some e => rfl
    | cons a rest ih =>
      intro hcont last
      have ha := hcont a (List.mem_cons_self a rest)
      have hrest := fun x hx => hcont x (List.mem_cons_of_mem a hx)
      cases a with
      | ok b => simp [isContinuable] at ha
      | err e =>
        cases e with
        | http s =>
          have hs : s ∈ retry_statuses := by
            simpa [isContinuable] using ha
          rw [show base_request_go (.err (.http s) :: rest) last
              = base_request_go rest (some (.http s)) by simp [base_request_go, hs]]
          rw [ih hrest (some (.http s))]
          rfl
        | network c =>
          rw [show base_request_go (.err (.network c) :: rest) last
              = base_request_go rest (some (.network c)) from rfl]
          rw [ih hrest (some (.network c))]
          rfl
  refine ⟨?_, hskip, ?_, ?_, hexhaust⟩
  · intro s rest last h4 h5
    refine hskip s rest last ?_
    intro hmem
    simp [retry_statuses] at hmem
    omega
  · intro s rest last h
    simp [base_request_go, h]
  · intro c rest last
    rfl

/-- Witness for C6: a 401 at the primary endpoint propagates immediately,
even though the fallback endpoint would have answered 200. -/
theorem base_request_spec_witness :
    base_request [.err (.http 401), .ok 7] = .raised (.http 401) :=
  base_request_spec.1 401 [.ok 7] none (by norm_num) (by norm_num)

/-- `TOTAL_EUROPE_AREA` (const.py line 44). -/
def TOTAL_EUROPE_AREA : String := "TOTAL_EUROPE"

/-- The load-forecast horizon names (const.py lines 62-65). -/
def LOAD_FORECAST_HORIZON_DAY_AHEAD : String := "day_ahead"

def LOAD_FORECAST_HORIZON_WEEK_AHEAD : String := "week_ahead"

def LOAD_FORECAST_HORIZON_MONTH_AHEAD : String := "month_ahead"

def LOAD_FORECAST_HORIZON_YEAR_AHEAD : String := "year_ahead"

/-- `EntsoeLoadCoordinator.__init__` (coordinator.py lines 538-540):
`self._missing_threshold = 3 if horizon == LOAD_FORECAST_HORIZON_DAY_AHEAD else 1`. -/
def missing_threshold (horizon : String) : ℕ :=
  if horizon = LOAD_FORECAST_HORIZON_DAY_AHEAD then 3 else 1

/-- `EntsoeLoadCoordinator._suppression_duration` (coordinator.py lines
544-551), in minutes: 6 h day-ahead, 12 h week-ahead, 1 day month-ahead,
3 days otherwise (year-ahead). -/
def suppression_duration (horizon : String) : Int :=
  if horizon = LOAD_FORECAST_HORIZON_DAY_AHEAD then 6 * 60
  else if horizon = LOAD_FORECAST_HORIZON_WEEK_AHEAD then 12 * 60
  else if horizon = LOAD_FORECAST_HORIZON_MONTH_AHEAD then 24 * 60
  else 3 * 24 * 60

/-- Per-area bookkeeping of a Total-Europe coordinator: the consecutive-miss
counter (`_area_missing_counts`, a `defaultdict(int)`), the suppression
deadline (`_area_suppressed_until`), and the time of the last suppression
(`_area_last_suppressed`). -/
structure AreaState where
  missCount : ℕ
  suppressedUntil : Option Int
  lastSuppressed : Option Int
deriving DecidableEq

/-- The state of an untracked area: counter 0, no suppression recorded. -/
def AreaState.initial : AreaState := ⟨0, none, none⟩

/-- What one `query_total_load_forecast` call for an area produced this cycle:
a raised `RequestException`, or a returned series (an empty one is falsy and
is treated like a failure by the loop). -/
inductive AreaOutcome where
  | failure
  | response (d : Series)
deriving DecidableEq

/-- Everything one iteration of the Total-Europe area loop decides for its
area: the new bookkeeping state, the series merged into the aggregate (if
any), and whether the area was counted missing / zero-only / newly suppressed
/ recovered. -/
structure AreaStepResult where
  state : AreaState
  contribution : Option Series
  missing : Bool
  zeroOnly : Bool
  suppressed : Bool
  recovered : Bool
deriving DecidableEq

/-- The shared miss branch (`if not response` at coordinator.py lines 660-669
and the `except RequestException` handler at lines 685-699): increment the
counter; once it reaches the threshold, suppress until `now + cooldown`,
record the suppression time and reset the counter to 0. -/
def area_miss (threshold : ℕ) (cooldown now : Int) (st : AreaState) : AreaStepResult :=
  let c := st.missCount + 1
  if threshold ≤ c then
    ⟨⟨0, some (now + cooldown), some now⟩, none, true, false, true, false⟩
  else
    ⟨⟨c, st.suppressedUntil, st.lastSuppressed⟩, none, true, false, false, false⟩

/-- The query part of one area iteration (coordinator.py lines 656-699): a
failure or empty response takes the miss branch; a non-empty response resets
the counter, clears the recorded suppression time (logging a recovery if one
was recorded), contributes its series to the aggregate, and is flagged
zero-only when every value is zero. -/
def area_query (threshold : ℕ) (cooldown now : Int) (st : AreaState) :
    AreaOutcome → AreaStepResult
  | .failure => area_miss threshold cooldown now st
  | .response d =>
    if d.isEmpty then area_miss threshold cooldown now st
    else
      ⟨⟨0, st.suppressedUntil, none⟩, some d, false,
        decide (∀ p ∈ d, p.2 = 0), false, st.lastSuppressed.isSome⟩

/-- One full iteration body for one area of
`EntsoeLoadCoordinator._query_total_europe_load` (coordinator.py lines
649-699), after the seen-codes dedup: if the suppression deadline is in the
future, skip the area (counted missing, nothing queried, state untouched); an
expired deadline is deleted before querying. -/
def process_area (threshold : ℕ) (cooldown now : Int) (st : AreaState)
    (outcome : AreaOutcome) : AreaStepResult :=
  match st.suppressedUntil with
  | some u =>
    if now < u then ⟨st, none, true, false, false, false⟩
    else area_query threshold cooldown now ⟨st.missCount, none, st.lastSuppressed⟩ outcome
  | none => area_query threshold cooldown now st outcome

/-- One entry of the `AREA_INFO` iteration: the area key, its wire code, and
what querying it would produce this cycle. -/
structure AreaQuery where
  key : String
  code : String
  outcome : AreaOutcome

/-- The mutable state of the `_query_total_europe_load` loop: the aggregate
being summed, the missing / zero-only sets and the suppressed / recovered
logs (modelled as lists in iteration order), the seen wire codes, and the
per-area bookkeeping dicts (keyed by area key). -/
structure LoopState where
  aggregate : Series
  missing : List String
  zeroOnly : List String
  suppressedRun : List String
  recoveredRun : List String
  seen : List String
  states : List (String × AreaState)

/-- Read an area's bookkeeping (`defaultdict` / `.get` semantics). -/
def getAreaState (σ : List (String × AreaState)) (k : String) : AreaState :=
  (alookup σ k).getD AreaState.initial

/-- One iteration of the `for area_key, info in AREA_INFO.items()` loop
(coordinator.py lines 640-699): skip the synthetic total-Europe entry, skip
codes already seen, then run the per-area body and merge its results —
`aggregate[timestamp] += value` for a contributed series. -/
def area_loop_step (threshold : ℕ) (cooldown now : Int) (acc : LoopState)
    (a : AreaQuery) : LoopState :=
  if a.key = TOTAL_EUROPE_AREA then acc
  else if a.code ∈ acc.seen then acc
  else
    let r := process_area threshold cooldown now (getAreaState acc.states a.key) a.outcome
    { aggregate :=
        match r.contribution with
        | some d => d.foldl (fun ag p => addInto ag p.1 p.2) acc.aggregate
        | none => acc.aggregate
      missing := if r.missing then acc.missing ++ [a.key] else acc.missing
      zeroOnly := if r.zeroOnly then acc.zeroOnly ++ [a.key] else acc.zeroOnly
      suppressedRun := if r.suppressed then acc.suppressedRun ++ [a.key] else acc.suppressedRun
      recoveredRun := if r.recovered then acc.recoveredRun ++ [a.key] else acc.recoveredRun
      seen := acc.seen ++ [a.code]
      states := aset acc.states a.key r.state }

/-- `EntsoeLoadCoordinator._query_total_europe_load` (coordinator.py lines
628-733): fold the area loop over the configured areas, starting from empty
aggregate/sets and the coordinator's current bookkeeping `σ`. -/
def query_total_europe_load (threshold : ℕ) (cooldown now : Int)
    (areas : List AreaQuery) (σ : List (String × AreaState)) : LoopState :=
  areas.foldl (area_loop_step threshold cooldown now) ⟨[], [], [], [], [], [], σ⟩

/-- `EntsoeBaseCoordinator._copy_data` (coordinator.py lines 51-60) for a
scalar series: rebuild the mapping entry by entry. -/
def copy_data (data : Series) : Series :=
  data.foldl (fun acc p => aset acc p.1 p.2) []

/-- `EntsoeBaseCoordinator._handle_total_europe_issues` (coordinator.py lines
101-202), projected to its return value — the logging and the remembered
issue/fallback sets do not influence it: no missing areas → `None` (use the
fresh result); missing areas with fresh data → `None` as well (partial fresh
result); missing areas and no fresh data → a copy of the cached data if any,
else an empty mapping. -/
def handle_total_europe_issues (missingNonempty hasFreshData : Bool)
    (cached : Series) : Option Series :=
  if !missingNonempty then none
  else if !hasFreshData then
    (if !cached.isEmpty then some (copy_data cached) else some [])
  else none

/-- Total-Europe branch of `EntsoeLoadCoordinator._async_update_data`
(coordinator.py lines 578-595 and 624-626): run the aggregate query, consult
`_handle_total_europe_issues` with `has_fresh_data = bool(response)`, return
the fallback when one is given, else `response or {}` (which is the aggregate
itself, as an empty aggregate yields `{}`). -/
def load_async_update_total_europe (loop : LoopState) (cached : Series) : Series :=
  match handle_total_europe_issues (!loop.missing.isEmpty) (!loop.aggregate.isEmpty) cached with
  | some d => d
  | none => loop.aggregate

theorem copy_data_eq (s : Series) (hnd : (s.map Prod.fst).Nodup) : copy_data s = s := by
  rw [copy_data, foldl_aset_of_disjoint s [] hnd fun p _ => rfl]
  rfl

/-- C5: for a refresh of the synthetic Total-Europe load aggregate: if the
aggregate obtained this cycle is non-empty (some area returned fresh data),
the refresh returns that partial fresh aggregate — even with missing areas;
prior cached data is returned (as a copy, which equals the cache for
duplicate-free keys) exactly when the fresh aggregate is empty, some area is
missing, and cached data exists; and with an empty fresh aggregate, missing
areas and no cache, an empty series is returned. -/
theorem total_europe_fallback_spec (threshold : ℕ) (cooldown now : Int)
    (areas : List AreaQuery) (σ : List (String × AreaState)) (cached : Series) :
    (¬(query_total_europe_load threshold cooldown now areas σ).aggregate.isEmpty →
        load_async_update_total_europe
            (query_total_europe_load threshold cooldown now areas σ) cached
          = (query_total_europe_load threshold cooldown now areas σ).aggregate)
    ∧ ((query_total_europe_load threshold cooldown now areas σ).aggregate.isEmpty →
        ¬(query_total_europe_load threshold cooldown now areas σ).missing.isEmpty →
        ¬cached.isEmpty →
        load_async_update_total_europe
            (query_total_europe_load threshold cooldown now areas σ) cached
          = copy_data cached)
    ∧ ((query_total_europe_load threshold cooldown now areas σ).aggregate.isEmpty →
        ¬(query_total_europe_load threshold cooldown now areas σ).missing.isEmpty →
        cached.isEmpty →
        load_async_update_total_europe
            (query_total_europe_load threshold cooldown now areas σ) cached
          = [])
    ∧ ((cached.map Prod.fst).Nodup → copy_data cached = cached) := by
  refine ⟨fun hne => ?_, fun hemp hmiss hc => ?_, fun hemp hmiss hc => ?_, copy_data_eq cached⟩
  · rw [load_async_update_total_europe, handle_total_europe_issues]
    by_cases hm : (query_total_europe_load threshold cooldown now areas σ).missing.isEmpty
    · simp [hm]
    · simp [hm, hne]
  · simp [load_async_update_total_europe, handle_total_europe_issues, hemp, hmiss, hc]
  · simp [load_async_update_total_europe, handle_total_europe_issues, hemp, hmiss, hc]

/-- C7: the per-area failure bookkeeping of the Total-Europe load coordinator:
the day-ahead horizon uses miss threshold 3 and cooldown 6 h, the week-,
month- and year-ahead horizons use threshold 1 with cooldowns 12 h, 1 day and
3 days; a failed or empty query increments the area's consecutive-miss
counter; when the incremented counter reaches the threshold the area is
suppressed until `now + cooldown` and the counter resets to 0; while the
suppression deadline is in the future the area is skipped — independently of
what a query would have returned — with its state untouched and the area
counted missing; an expired deadline is discarded before querying; and a
successful non-empty query resets the counter and clears the recorded
suppression (recovery). -/
theorem area_failure_state_spec :
    (missing_threshold LOAD_FORECAST_HORIZON_DAY_AHEAD = 3
      ∧ missing_threshold LOAD_FORECAST_HORIZON_WEEK_AHEAD = 1
      ∧ missing_threshold LOAD_FORECAST_HORIZON_MONTH_AHEAD = 1
      ∧ missing_threshold LOAD_FORECAST_HORIZON_YEAR_AHEAD = 1)
    ∧ (suppression_duration LOAD_FORECAST_HORIZON_DAY_AHEAD = 6 * 60
      ∧ suppression_duration LOAD_FORECAST_HORIZON_WEEK_AHEAD = 12 * 60
      ∧ suppression_duration LOAD_FORECAST_HORIZON_MONTH_AHEAD = 24 * 60
      ∧ suppression_duration LOAD_FORECAST_HORIZON_YEAR_AHEAD = 3 * 24 * 60)
    ∧ (∀ (th : ℕ) (cd now : Int) (st : AreaState) (o : AreaOutcome) (u : Int),
        st.suppressedUntil = some u → now < u →
        process_area th cd now st o = ⟨st, none, true, false, false, false⟩)
    ∧ (∀ (th : ℕ) (cd now : Int) (st : AreaState) (o : AreaOutcome),
        st.suppressedUntil = none →
        (o = .failure ∨ o = .response []) →
        st.missCount + 1 < th →
        process_area th cd now st o
          = ⟨⟨st.missCount + 1, none, st.lastSuppressed⟩, none, true, false, false, false⟩)
    ∧ (∀ (th : ℕ) (cd now : Int) (st : AreaState) (o : AreaOutcome),
        st.suppressedUntil = none →
        (o = .failure ∨ o = .response []) →
        th ≤ st.missCount + 1 →
        process_area th cd now st o
          = ⟨⟨0, some (now + cd), some now⟩, none, true, false, true, false⟩)
    ∧ (∀ (th : ℕ) (cd now : Int) (st : AreaState) (d : Series),
        st.suppressedUntil = none → ¬d.isEmpty →
        process_area th cd now st (.response d)
          = ⟨⟨0, none, none⟩, some d, false, decide (∀ p ∈ d, p.2 = 0), false,
              st.lastSuppressed.isSome⟩)
    ∧ (∀ (th : ℕ) (cd now : Int) (st : AreaState) (o : AreaOutcome) (u : Int),
        st.suppressedUntil = some u → u ≤ now →
        process_area th cd now st o
          = area_query th cd now ⟨st.missCount, none, st.lastSuppressed⟩ o) := by
  refine ⟨⟨rfl, rfl, rfl, rfl⟩, ⟨rfl, rfl, rfl, rfl⟩, ?_, ?_, ?_, ?_, ?_⟩
  · intro th cd now st o u hsup hnow
    simp [process_area, hsup, hnow]
  · intro th cd now st o hsup ho hth
    have hmiss : area_miss th cd now st
        = ⟨⟨st.missCount + 1, none, st.lastSuppressed⟩, none, true, false, false, false⟩ := by
      rw [area_miss]
      simp only [if_neg (by omega : ¬th ≤ st.missCount + 1)]
      rw [hsup]
    rcases ho with ho | ho <;> subst ho <;>
      simp [process_area, hsup, area_query, hmiss]
  · intro th cd now st o hsup ho hth
    have hmiss : area_miss th cd now st
        = ⟨⟨0, some (now + cd), some now⟩, none, true, false, true, false⟩ := by
      rw [area_miss]
      simp only [if_pos (by omega : th ≤ st.missCount + 1)]
    rcases ho with ho | ho <;> subst ho <;>
      simp [process_area, hsup, area_query, hmiss]
  · intro th cd now st d hsup hd
    simp [process_area, hsup, area_query, hd]
  · intro th cd now st o u hsup hnow
    simp [process_area, hsup, not_lt.mpr hnow]

/-- Witness for C5: with areas A and C failing and B returning `{0: 5}`, the
refresh returns the partial fresh aggregate `{0: 5}` (not the cache `{0: 9}`);
with all three areas failing it returns the cached copy `{0: 9}` unchanged. -/
theorem total_europe_fallback_spec_witness :
    load_async_update_total_europe
        (query_total_europe_load 3 360 0
          [⟨"A", "A", .failure⟩, ⟨"B", "B", .response [((0 : Int), (5 : ℚ))]⟩,
           ⟨"C", "C", .failure⟩] [])
        [((0 : Int), (9 : ℚ))]
      = [((0 : Int), (5 : ℚ))]
    ∧ load_async_update_total_europe
        (query_total_europe_load 3 360 0
          [⟨"A", "A", .failure⟩, ⟨"B", "B", .failure⟩, ⟨"C", "C", .failure⟩] [])
        [((0 : Int), (9 : ℚ))]
      = [((0 : Int), (9 : ℚ))] := by
  have hagg1 : (query_total_europe_load 3 360 0
      [⟨"A", "A", .failure⟩, ⟨"B", "B", .response [((0 : Int), (5 : ℚ))]⟩,
       ⟨"C", "C", .failure⟩] []).aggregate = [((0 : Int), (5 : ℚ))] := by
    simp [query_total_europe_load, area_loop_step, TOTAL_EUROPE_AREA, process_area,
      area_query, area_miss, getAreaState, AreaState.initial, alookup, aset, addInto]
  have hagg2 : (query_total_europe_load 3 360 0
      [⟨"A", "A", .failure⟩, ⟨"B", "B", .failure⟩, ⟨"C", "C", .failure⟩] []).aggregate
      = [] := by
    simp [query_total_europe_load, area_loop_step, TOTAL_EUROPE_AREA, process_area,
      area_query, area_miss, getAreaState, AreaState.initial, alookup, aset, addInto]
  have hmiss2 : (query_total_europe_load 3 360 0
      [⟨"A", "A", .failure⟩, ⟨"B", "B", .failure⟩, ⟨"C", "C", .failure⟩] []).missing
      = ["A", "B", "C"] := by
    simp [query_total_europe_load, area_loop_step, TOTAL_EUROPE_AREA, process_area,
      area_query, area_miss, getAreaState, AreaState.initial, alookup, aset, addInto]
  constructor
  · rw [(total_europe_fallback_spec 3 360 0
      [⟨"A", "A", .failure⟩, ⟨"B", "B", .response [((0 : Int), (5 : ℚ))]⟩,
       ⟨"C", "C", .failure⟩] [] [((0 : Int), (9 : ℚ))]).1 (by rw [hagg1]; simp), hagg1]
  · rw [(total_europe_fallback_spec 3 360 0
      [⟨"A", "A", .failure⟩, ⟨"B", "B", .failure⟩, ⟨"C", "C", .failure⟩] []
      [((0 : Int), (9 : ℚ))]).2.1 (by rw [hagg2]; rfl) (by rw [hmiss2]; simp) (by simp)]
    simp [copy_data, aset]

/-- Witness for C7: a future suppression deadline skips the area untouched; a
second consecutive miss under threshold 3 only increments the counter; a third
consecutive miss triggers suppression until `now + cooldown` with the counter
reset; a successful non-empty query resets the counter and clears the
recorded suppression. -/
theorem area_failure_state_spec_witness :
    process_area 3 360 50 ⟨1, some 100, some 0⟩ .failure
      = ⟨⟨1, some 100, some 0⟩, none, true, false, false, false⟩
    ∧ process_area 3 360 0 ⟨1, none, none⟩ .failure
      = ⟨⟨2, none, none⟩, none, true, false, false, false⟩
    ∧ process_area 3 360 0 ⟨2, none, none⟩ .failure
      = ⟨⟨0, some 360, some 0⟩, none, true, false, true, false⟩
    ∧ process_area 3 360 0 ⟨2, none, some 0⟩ (.response [((0 : Int), (5 : ℚ))])
      = ⟨⟨0, none, none⟩, some [((0 : Int), (5 : ℚ))], false, false, false, true⟩ := by
  refine ⟨?_, ?_, ?_, ?_⟩
  · exact area_failure_state_spec.2.2.1 3 360 50 ⟨1, some 100, some 0⟩ .failure 100 rfl
      (by norm_num)
  · exact area_failure_state_spec.2.2.2.1 3 360 0 ⟨1, none, none⟩ .failure rfl
      (Or.inl rfl) (by norm_num)
  · have h := area_failure_state_spec.2.2.2.2.1 3 360 0 ⟨2, none, none⟩ .failure rfl
      (Or.inl rfl) (by norm_num)
    rw [h]
    norm_num
  · have h := area_failure_state_spec.2.2.2.2.2.1 3 360 0 ⟨2, none, some 0⟩
      [((0 : Int), (5 : ℚ))] rfl (by simp)
    rw [h]
    norm_num

end Entsoe
